import Mathlib

/-!
Verification development for the ComfyUI-Distributed coordination core
(`distributed.py`): the job-collection protocol of `DistributedCollectorNode`
(master-side `execute`, the `job_complete`/`prepare_job` endpoints) and the
`WorkerProcessManager` (launch endpoint, `stop_worker`, `load_processes`).

The embedding is a shallow one: Python dicts become association lists with
insertion-order-preserving overwrite (`aupsert`), image tensors become opaque
payload identifiers (`Nat`), `asyncio.Queue` contents become the list of
fragments available to the consuming collect call, and OS process liveness
(`process.poll() is None` / `is_process_alive(pid)`) becomes a liveness oracle
`alive : Nat → Bool` supplied as a parameter.
-/

namespace Distributed

/-- Association-list lookup: first binding of the key, mirroring a Python
dict read `d[k]` / `d.get(k)`. -/
def alookup {K V : Type} [DecidableEq K] (k : K) : List (K × V) → Option V
  | [] => none
  | (k', v) :: rest => if k' = k then some v else alookup k rest

/-- Association-list overwrite-or-append, mirroring Python dict assignment
`d[k] = v`: an existing binding is overwritten in place (dict insertion order
is preserved), a new key is appended at the end. -/
def aupsert {K V : Type} [DecidableEq K] (k : K) (v : V) : List (K × V) → List (K × V)
  | [] => [(k, v)]
  | (k', v') :: rest => if k' = k then (k, v) :: rest else (k', v') :: aupsert k v rest

/-- Association-list deletion, mirroring Python `del d[k]`. -/
def aremove {K V : Type} [DecidableEq K] (k : K) (l : List (K × V)) : List (K × V) :=
  l.filter (fun p => p.1 ≠ k)

theorem alookup_aupsert_self {K V : Type} [DecidableEq K] (k : K) (v : V)
    (l : List (K × V)) : alookup k (aupsert k v l) = some v := by
  induction l with
  | nil => simp [aupsert, alookup]
  | cons p rest ih =>
    by_cases h : p.1 = k
    · simp [aupsert, h, alookup]
    · simp [aupsert, h, alookup, ih]

theorem aremove_aupsert {K V : Type} [DecidableEq K] (k : K) (v : V)
    (l : List (K × V)) : aremove k (aupsert k v l) = aremove k l := by
  induction l with
  | nil => simp [aupsert, aremove]
  | cons p rest ih =>
    cases p with
    | mk k' v' =>
      simp only [aremove, ne_eq, decide_not] at ih ⊢
      by_cases h : k' = k
      · simp [aupsert, h, List.filter_cons, ih]
      · simp [aupsert, h, List.filter_cons, ih]

/-- One result fragment pushed by a worker via the `/distributed/job_complete`
endpoint: `{'tensor': ..., 'worker_id': ..., 'image_index': ..., 'is_last': ...}`.
The tensor is opaque to the protocol and modelled by a `Nat` identifier. -/
structure Fragment where
  worker_id : String
  image_index : Nat
  tensor : Nat
  is_last : Bool
deriving DecidableEq

/-- Inner bucket of `worker_images[worker_id]`: image_index → tensor. -/
abbrev InnerBuckets := List (Nat × Nat)

/-- `worker_images`: worker_id → (image_index → tensor). -/
abbrev Buckets := List (String × InnerBuckets)

/-- Consumer-local state of the master collection loop in
`DistributedCollectorNode.execute`: the `worker_images` dict of dicts and the
`workers_done` set (a duplicate-free list). -/
structure CState where
  worker_images : Buckets
  workers_done : List String
deriving DecidableEq

/-- Set-insertion for `workers_done.add(worker_id)`. -/
def doneInsert (w : String) (l : List String) : List String :=
  if w ∈ l then l else w :: l

/-- Processing of one dequeued fragment by the master collection loop:
`worker_images[worker_id][image_index] = tensor` (creating the inner dict if
absent) and, when `is_last`, `workers_done.add(worker_id)`. -/
def processFragment (s : CState) (f : Fragment) : CState :=
  { worker_images :=
      aupsert f.worker_id
        (aupsert f.image_index f.tensor ((alookup f.worker_id s.worker_images).getD []))
        s.worker_images
    workers_done := if f.is_last then doneInsert f.worker_id s.workers_done
                    else s.workers_done }

/-- The master collection loop `while len(workers_done) < num_workers`,
consuming the fragments available on the job queue in order. The boolean of
the result is `true` exactly when the loop ended through the
`asyncio.TimeoutError` branch: the queue was exhausted (no further fragment
arrived within the per-item timeout) while fewer than `numWorkers` workers
were done; the final non-blocking drain then finds nothing further. When the
done-count reaches `numWorkers`, the loop exits with the remaining queue
contents unconsumed. -/
def collectLoop (numWorkers : Nat) : List Fragment → CState → CState × Bool
  | [], s => if numWorkers ≤ s.workers_done.length then (s, false) else (s, true)
  | f :: rest, s =>
      if numWorkers ≤ s.workers_done.length then (s, false)
      else collectLoop numWorkers rest (processFragment s f)

/-- Payloads are opaque tensor identifiers. -/
abbrev Payload := Nat

/-- Job table `prompt_server.distributed_pending_jobs`: job_id → queued
fragments. -/
abbrev JobsTable := List (String × List Fragment)

/-- Reassembly ordering at the end of `execute`: master images first in their
original order, then `for worker_id_str in sorted(worker_images.keys())`,
and within each worker `for idx in sorted(worker_images[worker_id_str].keys())`.
`sorted` on string keys is lexicographic, on integer keys numeric. -/
def orderedOutput (images : List Payload) (b : Buckets) : List Payload :=
  images ++ (List.insertionSort (· ≤ ·) (b.map Prod.fst)).flatMap (fun w =>
    let m := (alookup w b).getD []
    (List.insertionSort (· ≤ ·) (m.map Prod.fst)).map (fun i => (alookup i m).getD 0))

/-- Master branch of `DistributedCollectorNode.execute`: if the parsed
`enabled_worker_ids` list is empty, return the master's own images at once,
touching nothing; otherwise take the job's queue (creating an empty one when
absent, as the code does), run the collection loop, delete the job's queue
entry, and emit the deterministic reordering. -/
def executeMaster (images : List Payload) (enabledWorkers : List String)
    (jobs : JobsTable) (jid : String) : List Payload × JobsTable :=
  let numWorkers := enabledWorkers.length
  if numWorkers = 0 then (images, jobs)
  else
    let q := (alookup jid jobs).getD []
    let s := (collectLoop numWorkers q ⟨[], []⟩).1
    (orderedOutput images s.worker_images, aremove jid jobs)

/-- `DistributedCollectorNode.run`: `if not multi_job_id or pass_through`
return the input images unchanged; a worker sends its images to the master
over the network and returns them unchanged locally; the master collects. -/
def runNode (images : List Payload) (jid : String) (isWorker : Bool)
    (enabledWorkers : List String) (passThrough : Bool) (jobs : JobsTable) :
    List Payload × JobsTable :=
  if jid = "" ∨ passThrough then (images, jobs)
  else if isWorker then (images, jobs)
  else executeMaster images enabledWorkers jobs jid

/-- Result of the `/distributed/job_complete` endpoint. -/
inductive SubmitResult where
  | ok : SubmitResult
  | unknownJob : SubmitResult
deriving DecidableEq

/-- `/distributed/job_complete`: when a queue exists for the job id, append
the fragment to it (a plain unbounded put, never blocking); otherwise answer
404 "Job not found or already complete" and change nothing. -/
def jobComplete (jobs : JobsTable) (jid : String) (f : Fragment) :
    SubmitResult × JobsTable :=
  match alookup jid jobs with
  | some q => (SubmitResult.ok, aupsert jid (q ++ [f]) jobs)
  | none => (SubmitResult.unknownJob, jobs)

/-- `/distributed/prepare_job`: create the queue when absent; idempotent. -/
def prepareJob (jobs : JobsTable) (jid : String) : JobsTable :=
  match alookup jid jobs with
  | some _ => jobs
  | none => aupsert jid [] jobs

/-- `/distributed/queue_status`-style existence check on the pending-jobs
table. -/
def queueExists (jobs : JobsTable) (jid : String) : Bool :=
  (alookup jid jobs).isSome

/-- One entry of `WorkerProcessManager.processes`. `hasHandle` records whether
the `'process'` field holds a live `subprocess.Popen` object (`false` for
entries restored from the persisted snapshot, whose `'process'` is `None`).
The worker config is opaque to the manager and modelled by a `String`. -/
structure ProcInfo where
  pid : Nat
  hasHandle : Bool
  started_at : Nat
  config : String
  log_file : String
  launching : Bool
deriving DecidableEq

/-- The managed-process table, keyed by the string worker id. -/
abbrev ProcTable := List (String × ProcInfo)

/-- Result of the `/distributed/launch_worker` endpoint. -/
inductive LaunchResult where
  | alreadyRunning (pid : Nat) (log_file : String) : LaunchResult
  | launched (pid : Nat) (log_file : String) : LaunchResult
deriving DecidableEq

/-- `WorkerProcessManager.launch_worker` as it affects the table: spawn
(the fresh pid, timestamp and daily log path are environment inputs), then
record the entry with `launching = True` and a live handle. -/
def launchWorker (freshPid now : Nat) (cfg logFile : String)
    (procs : ProcTable) (wid : String) : LaunchResult × ProcTable :=
  (LaunchResult.launched freshPid logFile,
   aupsert wid
     { pid := freshPid, hasHandle := true, started_at := now,
       config := cfg, log_file := logFile, launching := true } procs)

/-- `/distributed/launch_worker`: when the id is already in the table, check
liveness (`process.poll() is None` for a handle-backed entry,
`_is_process_running(pid)` for a restored one — both are the OS liveness of
the recorded pid, the oracle `alive`); if still running answer the 409
conflict carrying the existing pid and log file and change nothing; if dead,
evict the stale entry and launch; when the id is absent, launch. -/
def launchWorkerEP (alive : Nat → Bool) (freshPid now : Nat)
    (cfg logFile : String) (procs : ProcTable) (wid : String) :
    LaunchResult × ProcTable :=
  match alookup wid procs with
  | some info =>
      if alive info.pid then
        (LaunchResult.alreadyRunning info.pid info.log_file, procs)
      else
        launchWorker freshPid now cfg logFile (aremove wid procs) wid
  | none => launchWorker freshPid now cfg logFile procs wid

/-- `WorkerProcessManager.stop_worker`. Oracles: `alive` is OS liveness of a
pid (`process.poll() is None`), `treeKill` is the boolean outcome of
`_kill_process_tree`, and `fallbackRaises` tells whether the fallback
`terminate_process` call raises (the `except Exception` branch). The result
mirrors the `(success, message)` pair returned by the Python method, paired
with the table after the call. -/
def stopWorker (alive treeKill : Nat → Bool) (fallbackRaises : Bool)
    (procs : ProcTable) (wid : String) : (Bool × String) × ProcTable :=
  match alookup wid procs with
  | none => ((false, "Worker not managed by UI"), procs)
  | some info =>
      if info.hasHandle = false then
        -- restored process without subprocess object
        if treeKill info.pid then
          ((true, "Worker stopped"), aremove wid procs)
        else
          ((false, "Failed to stop worker process"), procs)
      else if alive info.pid = false then
        ((false, "Worker already stopped"), aremove wid procs)
      else if treeKill info.pid then
        ((true, "Worker stopped"), aremove wid procs)
      else if fallbackRaises then
        ((false, "Error stopping worker"), procs)
      else
        ((true, "Worker stopped (fallback)"), aremove wid procs)

/-- One entry of the persisted `managed_processes` snapshot in the config
file: `{pid, started_at, config, log_file, launching}`. -/
structure PersistEntry where
  pid : Nat
  started_at : Nat
  config : String
  log_file : String
  launching : Bool
deriving DecidableEq

/-- The in-memory entry `load_processes` reconstructs for a live persisted
entry: same pid, timestamp, config and log file, `'process': None` (no
subprocess handle can be reconstructed), and no `'launching'` key (reads of
it default to `False`). -/
def restoredEntry (e : PersistEntry) : ProcInfo :=
  { pid := e.pid, hasHandle := false, started_at := e.started_at,
    config := e.config, log_file := e.log_file, launching := false }

/-- `WorkerProcessManager.load_processes`: for each persisted entry, keep it
(as a restored entry) exactly when its pid is truthy (non-zero) and the OS
reports the pid alive; entries with a dead or missing pid are merely logged
and dropped. -/
def loadProcesses (alive : Nat → Bool) (persisted : List (String × PersistEntry)) :
    ProcTable :=
  persisted.filterMap (fun p =>
    if p.2.pid ≠ 0 ∧ alive p.2.pid then some (p.1, restoredEntry p.2) else none)

/-- A handle-backed managed entry used to instantiate the launch-endpoint
theorem on a concrete input. -/
def procW : ProcInfo :=
  { pid := 7, hasHandle := true, started_at := 0, config := "c",
    log_file := "w.log", launching := true }

/-- A restored (handle-less) managed entry, concrete input for the
stop-worker analysis. -/
def procRestored : ProcInfo :=
  { pid := 5, hasHandle := false, started_at := 0, config := "c",
    log_file := "w.log", launching := false }

/-- A handle-backed managed entry, concrete input for the stop-worker
analysis. -/
def procHandle : ProcInfo :=
  { pid := 3, hasHandle := true, started_at := 0, config := "c",
    log_file := "v.log", launching := false }

/-- A persisted snapshot entry whose pid will be treated as dead. -/
def deadEntry : PersistEntry :=
  { pid := 2, started_at := 0, config := "c",
    log_file := "dead.log", launching := true }

/-- A persisted snapshot entry whose pid will be treated as alive. -/
def liveEntry : PersistEntry :=
  { pid := 1, started_at := 0, config := "c",
    log_file := "live.log", launching := false }

/-- The `worker_images` buckets at the end of the collection loop, as a
function of the collect call's inputs. -/
def finalBuckets (enabledWorkers : List String) (jobs : JobsTable) (jid : String) :
    Buckets :=
  ((collectLoop enabledWorkers.length ((alookup jid jobs).getD []) ⟨[], []⟩).1).worker_images

/-- The payload stored in the buckets for one `(worker_id, image_index)`
pair: the read `worker_images[worker_id][image_index]`. -/
def bucketAt (b : Buckets) (w : String) (i : Nat) : Option Nat :=
  alookup i ((alookup w b).getD [])

/-- The buckets are genuine dicts of dicts: no duplicate worker keys, and
within each worker no duplicate image-index keys — so they hold exactly one
payload per bucketed `(worker_id, image_index)` pair. -/
def bucketsWellFormed (b : Buckets) : Prop :=
  (b.map Prod.fst).Nodup ∧ ∀ p ∈ b, (p.2.map Prod.fst).Nodup

theorem alookup_aremove_self {K V : Type} [DecidableEq K] (k : K)
    (l : List (K × V)) : alookup k (aremove k l) = none := by
  induction l with
  | nil => rfl
  | cons p rest ih =>
    cases p with
    | mk k' v =>
      by_cases h : k' = k
      · simpa [aremove, List.filter_cons, h] using ih
      · simpa [aremove, List.filter_cons, h, alookup] using ih

theorem alookup_mem {K V : Type} [DecidableEq K] {k : K} {v : V} :
    ∀ {l : List (K × V)}, alookup k l = some v → (k, v) ∈ l := by
  intro l
  induction l with
  | nil => intro h; simp [alookup] at h
  | cons p rest ih =>
    intro h
    cases p with
    | mk k' v' =>
      by_cases hk : k' = k
      · subst hk
        have h' : v' = v := by simpa [alookup] using h
        subst h'
        exact List.mem_cons_self _ _
      · simp only [alookup, if_neg hk] at h
        exact List.mem_cons_of_mem _ (ih h)

theorem mem_aupsert {K V : Type} [DecidableEq K] {p : K × V} {k : K} {v : V} :
    ∀ {l : List (K × V)}, p ∈ aupsert k v l → p = (k, v) ∨ p ∈ l := by
  intro l
  induction l with
  | nil => intro h; simpa [aupsert] using h
  | cons q rest ih =>
    intro h
    cases q with
    | mk k' v' =>
      by_cases hk : k' = k
      · simp only [aupsert, if_pos hk, List.mem_cons] at h
        rcases h with h | h
        · exact Or.inl h
        · exact Or.inr (List.mem_cons_of_mem _ h)
      · simp only [aupsert, if_neg hk, List.mem_cons] at h
        rcases h with h | h
        · exact Or.inr (by simp [h])
        · rcases ih h with h' | h'
          · exact Or.inl h'
          · exact Or.inr (List.mem_cons_of_mem _ h')

theorem alookup_aupsert_ne {K V : Type} [DecidableEq K] {k' k : K}
    (hne : k' ≠ k) (v : V) :
    ∀ (l : List (K × V)), alookup k (aupsert k' v l) = alookup k l := by
  intro l
  induction l with
  | nil => simp [aupsert, alookup, hne]
  | cons p rest ih =>
    cases p with
    | mk k₀ v₀ =>
      by_cases h : k₀ = k'
      · subst h
        simp [aupsert, alookup, hne, Ne.symm hne]
      · simp only [aupsert, if_neg h]
        by_cases h2 : k₀ = k
        · simp [alookup, h2]
        · simp [alookup, h2, ih]

/-- Writing back the value a key already holds is the identity: the dict
assignment overwrites in place. -/
theorem aupsert_self_of_alookup {K V : Type} [DecidableEq K] {k : K} {v : V} :
    ∀ {l : List (K × V)}, alookup k l = some v → aupsert k v l = l := by
  intro l
  induction l with
  | nil => intro h; simp [alookup] at h
  | cons p rest ih =>
    intro h
    cases p with
    | mk k' v' =>
      by_cases hk : k' = k
      · subst hk
        have h' : v' = v := by simpa [alookup] using h
        subst h'
        simp [aupsert]
      · simp only [alookup, if_neg hk] at h
        simp [aupsert, hk, ih h]

theorem map_fst_aupsert {K V : Type} [DecidableEq K] (k : K) (v : V) :
    ∀ (l : List (K × V)), (aupsert k v l).map Prod.fst
      = if k ∈ l.map Prod.fst then l.map Prod.fst else l.map Prod.fst ++ [k] := by
  intro l
  induction l with
  | nil => simp [aupsert]
  | cons p rest ih =>
    cases p with
    | mk k' v' =>
      by_cases hk : k' = k
      · subst hk
        simp [aupsert]
      · by_cases hmem : k ∈ rest.map Prod.fst
        · simp [aupsert, hk, ih, hmem, Ne.symm hk]
        · simp [aupsert, hk, ih, hmem, Ne.symm hk]

theorem nodup_keys_aupsert {K V : Type} [DecidableEq K] (k : K) (v : V)
    (l : List (K × V)) (h : (l.map Prod.fst).Nodup) :
    ((aupsert k v l).map Prod.fst).Nodup := by
  rw [map_fst_aupsert]
  by_cases hk : k ∈ l.map Prod.fst
  · simpa [hk] using h
  · simp only [hk, if_neg, ite_false]
    exact List.Nodup.append h (List.nodup_singleton k)
      (by simpa [List.disjoint_singleton] using hk)

theorem doneInsert_of_mem {w : String} {l : List String} (h : w ∈ l) :
    doneInsert w l = l := by
  simp [doneInsert, h]

theorem mem_doneInsert_of_mem {w : String} (w' : String) {l : List String}
    (h : w ∈ l) : w ∈ doneInsert w' l := by
  by_cases h' : w' ∈ l
  · simp [doneInsert, h', h]
  · simp [doneInsert, h', List.mem_cons, h]

/-- Later wins: processing a fragment stores exactly its payload at its
`(worker_id, image_index)` key, overwriting whatever was there. -/
theorem bucketAt_processFragment (s : CState) (f : Fragment) :
    bucketAt (processFragment s f).worker_images f.worker_id f.image_index
      = some f.tensor := by
  simp [bucketAt, processFragment, alookup_aupsert_self]

/-- Frame: processing a fragment with a different `(worker_id, image_index)`
key leaves the payload stored for this key unchanged. -/
theorem bucketAt_processFragment_ne (s : CState) (g : Fragment) (w : String)
    (i : Nat) (hne : g.worker_id ≠ w ∨ g.image_index ≠ i) :
    bucketAt (processFragment s g).worker_images w i
      = bucketAt s.worker_images w i := by
  rcases hne with hw | hi
  · simp [bucketAt, processFragment, alookup_aupsert_ne hw]
  · by_cases hw : g.worker_id = w
    · subst hw
      simp [bucketAt, processFragment, alookup_aupsert_self,
        alookup_aupsert_ne hi]
    · simp [bucketAt, processFragment, alookup_aupsert_ne hw]

theorem workers_done_mono (s : CState) (g : Fragment) {w : String}
    (h : w ∈ s.workers_done) : w ∈ (processFragment s g).workers_done := by
  cases hl : g.is_last
  · simpa [processFragment, hl]
  · simpa [processFragment, hl] using mem_doneInsert_of_mem g.worker_id h

theorem mem_workers_done_processFragment (s : CState) (f : Fragment)
    (hl : f.is_last = true) :
    f.worker_id ∈ (processFragment s f).workers_done := by
  by_cases h : f.worker_id ∈ s.workers_done
  · simp [processFragment, hl, doneInsert, h]
  · simp [processFragment, hl, doneInsert, h, List.mem_cons]

/-- Re-processing a fragment whose write is already in place (same payload
stored at its key, and its worker already marked done when it carries
`is_last`) leaves the collection state unchanged. -/
theorem processFragment_absorbed (s : CState) (f : Fragment)
    (hb : bucketAt s.worker_images f.worker_id f.image_index = some f.tensor)
    (hd : f.is_last = true → f.worker_id ∈ s.workers_done) :
    processFragment s f = s := by
  obtain ⟨b, d⟩ := s
  simp only [bucketAt] at hb
  cases hwl : alookup f.worker_id b with
  | none => rw [hwl] at hb; simp [alookup] at hb
  | some m₀ =>
    rw [hwl] at hb
    simp only [Option.getD_some] at hb
    have h1 : aupsert f.image_index f.tensor m₀ = m₀ :=
      aupsert_self_of_alookup hb
    have h2 : aupsert f.worker_id m₀ b = b := aupsert_self_of_alookup hwl
    simp only [processFragment, hwl, Option.getD_some, h1, h2, CState.mk.injEq,
      true_and]
    cases hl : f.is_last
    · rfl
    · simpa using doneInsert_of_mem (hd hl)

theorem collectLoop_of_done (n : Nat) (q : List Fragment) (s : CState)
    (h : n ≤ s.workers_done.length) : collectLoop n q s = (s, false) := by
  cases q <;> simp [collectLoop, h]

theorem collectLoop_zero (q : List Fragment) (s : CState) :
    collectLoop 0 q s = (s, false) :=
  collectLoop_of_done 0 q s (Nat.zero_le _)

/-- After intervening traffic on other keys, re-processing an
already-processed fragment changes nothing: the loop on `m ++ f :: r` equals
the loop on `m ++ r` from any state in which `f`'s write is in place. -/
theorem collectLoop_absorb (n : Nat) (f : Fragment) (r : List Fragment)
    (m : List Fragment) : ∀ (s : CState),
    bucketAt s.worker_images f.worker_id f.image_index = some f.tensor →
    (f.is_last = true → f.worker_id ∈ s.workers_done) →
    (∀ g ∈ m, g.worker_id ≠ f.worker_id ∨ g.image_index ≠ f.image_index) →
    collectLoop n (m ++ f :: r) s = collectLoop n (m ++ r) s := by
  induction m with
  | nil =>
    intro s hb hd _
    by_cases h : n ≤ s.workers_done.length
    · rw [collectLoop_of_done n _ s h, collectLoop_of_done n _ s h]
    · simp only [List.nil_append, collectLoop, h, if_neg, ite_false]
      rw [processFragment_absorbed s f hb hd]
  | cons g m' ih =>
    intro s hb hd hm
    by_cases h : n ≤ s.workers_done.length
    · rw [collectLoop_of_done n _ s h, collectLoop_of_done n _ s h]
    · simp only [List.cons_append, collectLoop, h, if_neg, ite_false]
      exact ih (processFragment s g)
        (by rw [bucketAt_processFragment_ne s g _ _ (hm g (by simp))]; exact hb)
        (fun hl => workers_done_mono s g (hd hl))
        (fun g' hg' => hm g' (by simp [hg']))

/-- Re-submitting a fragment later in the queue — with any traffic on other
`(worker_id, image_index)` keys in between — does not change the outcome of
the collection loop. -/
theorem collectLoop_retry (n : Nat) (f : Fragment) (m r : List Fragment)
    (hm : ∀ g ∈ m, g.worker_id ≠ f.worker_id ∨ g.image_index ≠ f.image_index)
    (l : List Fragment) : ∀ (s : CState),
    collectLoop n (l ++ f :: (m ++ f :: r)) s
      = collectLoop n (l ++ f :: (m ++ r)) s := by
  induction l with
  | nil =>
    intro s
    by_cases h : n ≤ s.workers_done.length
    · rw [collectLoop_of_done n _ s h, collectLoop_of_done n _ s h]
    · simp only [List.nil_append, collectLoop, h, if_neg, ite_false]
      exact collectLoop_absorb n f r m (processFragment s f)
        (bucketAt_processFragment s f)
        (fun hl => mem_workers_done_processFragment s f hl) hm
  | cons g l' ih =>
    intro s
    by_cases h : n ≤ s.workers_done.length
    · rw [collectLoop_of_done n _ s h, collectLoop_of_done n _ s h]
    · simp only [List.cons_append, collectLoop, h, if_neg, ite_false]
      exact ih (processFragment s g)

theorem bucketsWF_processFragment (s : CState) (f : Fragment)
    (h : bucketsWellFormed s.worker_images) :
    bucketsWellFormed (processFragment s f).worker_images := by
  obtain ⟨houter, hinner⟩ := h
  constructor
  · exact nodup_keys_aupsert _ _ _ houter
  · intro p hp
    rcases mem_aupsert hp with hp' | hp'
    · rw [hp']
      apply nodup_keys_aupsert
      cases hwl : alookup f.worker_id s.worker_images with
      | none => simp
      | some m₀ => simpa [hwl] using hinner _ (alookup_mem hwl)
    · exact hinner p hp'

theorem bucketsWF_collectLoop (n : Nat) (q : List Fragment) : ∀ (s : CState),
    bucketsWellFormed s.worker_images →
    bucketsWellFormed ((collectLoop n q s).1).worker_images := by
  induction q with
  | nil =>
    intro s h
    by_cases hc : n ≤ s.workers_done.length <;> simpa [collectLoop, hc]
  | cons f rest ih =>
    intro s h
    by_cases hc : n ≤ s.workers_done.length
    · simpa [collectLoop, hc]
    · simp only [collectLoop, hc, if_neg, ite_false]
      exact ih (processFragment s f) (bucketsWF_processFragment s f h)

/-- C2 (counterexample). With the non-empty expected set `{"a"}` and a single
queued fragment from worker `"b"` carrying `is_last`, the collection loop
ends without a timeout even though the expected worker `"a"` never signalled
done: the loop compares only the count `len(workers_done) < num_workers`,
not the identity of the done workers. -/
theorem c2_counterexample :
    (collectLoop (["a"] : List String).length [⟨"b", 0, 0, true⟩] ⟨[], []⟩).2
      = false ∧
    "a" ∉ (collectLoop (["a"] : List String).length
      [⟨"b", 0, 0, true⟩] ⟨[], []⟩).1.workers_done ∧
    "b" ∈ (collectLoop (["a"] : List String).length
      [⟨"b", 0, 0, true⟩] ⟨[], []⟩).1.workers_done := by
  decide

/-- C2 (amended). The collection loop of `DistributedCollectorNode.execute`
terminates without a timeout exactly when the number of distinct worker ids
that signalled `is_last` has reached the number of expected workers; the ids
themselves are never compared against the expected set, so fragments carrying
unexpected worker ids can end collection early. -/
theorem c2_no_timeout_iff_count (n : Nat) (q : List Fragment) (s : CState) :
    (collectLoop n q s).2 = false ↔
      n ≤ (collectLoop n q s).1.workers_done.length := by
  induction q generalizing s with
  | nil => by_cases h : n ≤ s.workers_done.length <;> simp [collectLoop, h]
  | cons f rest ih =>
    by_cases h : n ≤ s.workers_done.length
    · simp [collectLoop, h]
    · simp only [collectLoop, h, if_neg, ite_false]
      exact ih (processFragment s f)

/-- C3. Whenever the parsed expected-worker list is non-empty (so the
collection loop actually runs, ending either with all expected workers done
or by timeout with a partial set), `execute` deletes the job's queue entry
before returning: a queue-existence check on the resulting table is false. -/
theorem c3_queue_deleted (images : List Payload) (enabledWorkers : List String)
    (jobs : JobsTable) (jid : String) (hne : enabledWorkers ≠ []) :
    queueExists (executeMaster images enabledWorkers jobs jid).2 jid = false := by
  have hn : enabledWorkers.length ≠ 0 := by simpa using hne
  simp [executeMaster, hn, queueExists, alookup_aremove_self]

theorem c3_witness :
    (["a"] : List String) ≠ [] ∧
    queueExists
        (executeMaster [0] ["a"] [("j", [⟨"a", 0, 1, true⟩])] "j").2 "j" = false :=
  ⟨by decide, c3_queue_deleted [0] ["a"] [("j", [⟨"a", 0, 1, true⟩])] "j" (by decide)⟩

/-- C4. Fragments are deduplicated by `(worker_id, image_index)`:
(i) the bucket write `worker_images[worker_id][image_index] = tensor` is
later-wins — for every pair of same-key submissions, after the later one is
processed the buckets hold exactly its payload at that key, overwriting the
earlier; (ii) the final buckets of every collect call hold exactly one
payload per bucketed pair (no duplicate worker keys, no duplicate index keys
within a worker); (iii) re-submitting the same fragment later — the
at-least-once retry case, with any amount of traffic on other
`(worker_id, image_index)` keys in between — yields exactly the same collect
result, payloads and resulting job table, as submitting it once (further
retry copies are absorbed by repeated application). -/
theorem c4_dedup_by_index :
    (∀ (s : CState) (f : Fragment),
      bucketAt (processFragment s f).worker_images f.worker_id f.image_index
        = some f.tensor) ∧
    (∀ (n : Nat) (q : List Fragment),
      bucketsWellFormed ((collectLoop n q ⟨[], []⟩).1.worker_images)) ∧
    (∀ (images : List Payload) (enabledWorkers : List String)
       (jobs : JobsTable) (jid : String) (l m r : List Fragment) (f : Fragment),
      enabledWorkers ≠ [] →
      (∀ g ∈ m, g.worker_id ≠ f.worker_id ∨ g.image_index ≠ f.image_index) →
      executeMaster images enabledWorkers
          (aupsert jid (l ++ f :: (m ++ f :: r)) jobs) jid
        = executeMaster images enabledWorkers
          (aupsert jid (l ++ f :: (m ++ r)) jobs) jid) := by
  refine ⟨bucketAt_processFragment, ?_, ?_⟩
  · intro n q
    exact bucketsWF_collectLoop n q ⟨[], []⟩ ⟨List.nodup_nil, by simp⟩
  · intro images enabledWorkers jobs jid l m r f hne hm
    have hn : enabledWorkers.length ≠ 0 := by simpa using hne
    have hloop := collectLoop_retry enabledWorkers.length f m r hm l ⟨[], []⟩
    simp [executeMaster, hn, alookup_aupsert_self, aremove_aupsert, hloop]

theorem c4_witness :
    (["a", "b"] : List String) ≠ [] ∧
    executeMaster [9] ["a", "b"]
        (aupsert "j" ([] ++ ⟨"a", 0, 7, true⟩ ::
          ([⟨"b", 0, 20, true⟩] ++ ⟨"a", 0, 7, true⟩ :: [])) []) "j"
      = executeMaster [9] ["a", "b"]
        (aupsert "j" ([] ++ ⟨"a", 0, 7, true⟩ ::
          ([⟨"b", 0, 20, true⟩] ++ [])) []) "j" :=
  ⟨by decide,
   c4_dedup_by_index.2.2 [9] ["a", "b"] [] "j" [] [⟨"b", 0, 20, true⟩] []
     ⟨"a", 0, 7, true⟩ (by decide) (by decide)⟩

/-- C5. Submitting a fragment for a job id with no queue (no prior prepare,
or already closed) answers `UnknownJob` (the endpoint's 404) and leaves the
job table exactly as it was — no queue is created, no fragment stored; when
a queue does exist the fragment is appended to it. -/
theorem c5_submit_fragment (jobs : JobsTable) (jid : String) (f : Fragment) :
    (alookup jid jobs = none →
        jobComplete jobs jid f = (SubmitResult.unknownJob, jobs)) ∧
    (∀ q, alookup jid jobs = some q →
        jobComplete jobs jid f = (SubmitResult.ok, aupsert jid (q ++ [f]) jobs)) := by
  constructor
  · intro h; simp [jobComplete, h]
  · intro q h; simp [jobComplete, h]

theorem c5_witness :
    jobComplete [] "j" ⟨"a", 0, 0, true⟩ = (SubmitResult.unknownJob, []) ∧
    jobComplete [("j", [])] "j" ⟨"a", 0, 0, true⟩
      = (SubmitResult.ok, aupsert "j" ([] ++ [⟨"a", 0, 0, true⟩]) [("j", [])]) :=
  ⟨(c5_submit_fragment [] "j" ⟨"a", 0, 0, true⟩).1 rfl,
   (c5_submit_fragment [("j", [])] "j" ⟨"a", 0, 0, true⟩).2 [] rfl⟩

/-- C9. `DistributedCollectorNode.run` is the identity on the input images
whenever the job id is the empty string or pass-through is enabled, and it
leaves the job table untouched in either case. -/
theorem c9_run_identity (images : List Payload) (jid : String) (isWorker : Bool)
    (enabledWorkers : List String) (passThrough : Bool) (jobs : JobsTable)
    (hcond : jid = "" ∨ passThrough = true) :
    runNode images jid isWorker enabledWorkers passThrough jobs = (images, jobs) := by
  rcases hcond with h | h <;> simp [runNode, h]

theorem c9_witness :
    ("" = "" ∨ false = true) ∧
    runNode [3] "" false ["a"] false [("j", [])] = ([3], [("j", [])]) :=
  ⟨Or.inl rfl, c9_run_identity [3] "" false ["a"] false [("j", [])] (Or.inl rfl)⟩

/-- C10. A collect call whose expected-worker list parses to the empty set
returns the master's own images unchanged at once, without touching the
job-queue table: any previously prepared queue for the job id stays in
place. -/
theorem c10_empty_expected (images : List Payload) (jobs : JobsTable)
    (jid : String) :
    executeMaster images [] jobs jid = (images, jobs) := rfl

/-- C1. The collect result is deterministically ordered: the master's own
images first, in their original order, followed by the bucketed worker
payloads — there are a list `ws` of worker ids, sorted lexicographically
(`≤` on `String`) and a permutation of the bucket keys, and per-worker index
lists `idxs w`, each sorted ascending and a permutation of that worker's
bucket keys, such that the output is exactly the master images followed by
the groups in that order. -/
theorem c1_deterministic_ordering (images : List Payload)
    (enabledWorkers : List String) (jobs : JobsTable) (jid : String) :
    ∃ ws : List String, ∃ idxs : String → List Nat,
      ws.Sorted (· ≤ ·) ∧
      ws.Perm ((finalBuckets enabledWorkers jobs jid).map Prod.fst) ∧
      (∀ w, (idxs w).Sorted (· ≤ ·) ∧
        (idxs w).Perm
          (((alookup w (finalBuckets enabledWorkers jobs jid)).getD []).map Prod.fst)) ∧
      (executeMaster images enabledWorkers jobs jid).1
        = images ++ ws.flatMap (fun w =>
            (idxs w).map (fun i =>
              (alookup i
                ((alookup w (finalBuckets enabledWorkers jobs jid)).getD [])).getD 0)) := by
  refine ⟨List.insertionSort (· ≤ ·)
      ((finalBuckets enabledWorkers jobs jid).map Prod.fst),
    fun w => List.insertionSort (· ≤ ·)
      (((alookup w (finalBuckets enabledWorkers jobs jid)).getD []).map Prod.fst),
    List.sorted_insertionSort _ _, List.perm_insertionSort _ _,
    fun w => ⟨List.sorted_insertionSort _ _, List.perm_insertionSort _ _⟩, ?_⟩
  by_cases h : enabledWorkers.length = 0
  · have hb : finalBuckets enabledWorkers jobs jid = [] := by
      simp [finalBuckets, h, collectLoop_zero]
    simp [executeMaster, h, hb]
  · simp [executeMaster, h, orderedOutput, finalBuckets]

/-- C6. When the managed-process table already holds an entry for the worker
id and the recorded process is still alive, the launch endpoint answers the
409 conflict carrying the existing pid and log-file path, spawns nothing and
leaves the table unchanged — and therefore a second launch call right after
answers `AlreadyRunning` again. -/
theorem c6_already_running (alive : Nat → Bool) (pidA nowA pidB nowB : Nat)
    (cfgA logA cfgB logB : String) (procs : ProcTable) (wid : String)
    (info : ProcInfo) (hmem : alookup wid procs = some info)
    (halive : alive info.pid = true) :
    launchWorkerEP alive pidA nowA cfgA logA procs wid
      = (LaunchResult.alreadyRunning info.pid info.log_file, procs) ∧
    launchWorkerEP alive pidB nowB cfgB logB
        (launchWorkerEP alive pidA nowA cfgA logA procs wid).2 wid
      = (LaunchResult.alreadyRunning info.pid info.log_file, procs) := by
  have h1 : launchWorkerEP alive pidA nowA cfgA logA procs wid
      = (LaunchResult.alreadyRunning info.pid info.log_file, procs) := by
    simp [launchWorkerEP, hmem, halive]
  refine ⟨h1, ?_⟩
  rw [h1]
  simp [launchWorkerEP, hmem, halive]

theorem c6_witness :
    alookup "w" [("w", procW)] = some procW ∧
    (fun _ : Nat => true) procW.pid = true ∧
    launchWorkerEP (fun _ => true) 9 1 "c2" "l2" [("w", procW)] "w"
      = (LaunchResult.alreadyRunning procW.pid procW.log_file, [("w", procW)]) :=
  ⟨rfl, rfl,
   (c6_already_running (fun _ => true) 9 1 9 1 "c2" "l2" "c2" "l2"
      [("w", procW)] "w" procW rfl rfl).1⟩

/-- C7 (counterexample). A restored managed worker (no subprocess handle)
whose process-tree kill fails is a terminal stop failure, and the code
returns `(False, "Failed to stop worker process")` without deleting the
registry entry: the worker is still in the table afterwards, contradicting
the claim that the entry is evicted on `StopError`. -/
theorem c7_counterexample :
    (stopWorker (fun _ => true) (fun _ => false) false
        [("w", procRestored)] "w").1
      = (false, "Failed to stop worker process") ∧
    alookup "w"
        (stopWorker (fun _ => true) (fun _ => false) false
          [("w", procRestored)] "w").2
      = some procRestored := by
  decide

/-- C7 (amended). When a stop call reports failure for any reason other than
the benign `"Worker already stopped"` race — in particular the terminal
`StopError` outcomes, where the tree kill failed and (for handle-backed
entries) the fallback kill raised — the managed-process table is returned
unchanged: the registry entry is NOT evicted and the worker stays managed. -/
theorem c7_failed_stop_keeps_entry (alive treeKill : Nat → Bool)
    (fallbackRaises : Bool) (procs : ProcTable) (wid : String)
    (hfail : (stopWorker alive treeKill fallbackRaises procs wid).1.1 = false)
    (hnotRace :
      (stopWorker alive treeKill fallbackRaises procs wid).1.2
        ≠ "Worker already stopped") :
    (stopWorker alive treeKill fallbackRaises procs wid).2 = procs := by
  cases halo : alookup wid procs with
  | none => simp [stopWorker, halo]
  | some info =>
    cases hh : info.hasHandle with
    | false =>
      cases htk : treeKill info.pid with
      | false => simp [stopWorker, halo, hh, htk]
      | true => simp [stopWorker, halo, hh, htk] at hfail
    | true =>
      cases hal : alive info.pid with
      | false => simp [stopWorker, halo, hh, hal] at hnotRace
      | true =>
        cases htk : treeKill info.pid with
        | true => simp [stopWorker, halo, hh, hal, htk] at hfail
        | false =>
          cases hfb : fallbackRaises with
          | true => simp [stopWorker, halo, hh, hal, htk, hfb]
          | false => simp [stopWorker, halo, hh, hal, htk, hfb] at hfail

theorem c7_witness :
    (stopWorker (fun _ => true) (fun _ => false) true
        [("v", procHandle)] "v").1.1 = false ∧
    (stopWorker (fun _ => true) (fun _ => false) true
        [("v", procHandle)] "v").1.2 ≠ "Worker already stopped" ∧
    (stopWorker (fun _ => true) (fun _ => false) true
        [("v", procHandle)] "v").2 = [("v", procHandle)] :=
  ⟨by decide, by decide,
   c7_failed_stop_keeps_entry (fun _ => true) (fun _ => false) true
     [("v", procHandle)] "v" (by decide) (by decide)⟩

/-- C8. Loading a persisted registry snapshot restores exactly the entries
whose (truthy, i.e. non-zero) pid the OS still reports alive — each restored
without a subprocess handle — and silently drops every entry whose pid is
dead; nothing else appears in the resulting table. -/
theorem c8_load_restores_live (alive : Nat → Bool)
    (persisted : List (String × PersistEntry)) :
    (∀ p : String × ProcInfo,
        p ∈ loadProcesses alive persisted ↔
          ∃ e : PersistEntry, (p.1, e) ∈ persisted ∧ e.pid ≠ 0 ∧
            alive e.pid = true ∧ p.2 = restoredEntry e) ∧
    (∀ p : String × ProcInfo,
        p ∈ loadProcesses alive persisted → p.2.hasHandle = false) := by
  have hmain : ∀ p : String × ProcInfo,
      p ∈ loadProcesses alive persisted ↔
        ∃ e : PersistEntry, (p.1, e) ∈ persisted ∧ e.pid ≠ 0 ∧
          alive e.pid = true ∧ p.2 = restoredEntry e := by
    intro p
    simp only [loadProcesses, List.mem_filterMap]
    constructor
    · rintro ⟨⟨wid, e⟩, hmem, hcond⟩
      split_ifs at hcond with hc
      · obtain rfl := Option.some.inj hcond
        exact ⟨e, hmem, hc.1, hc.2, rfl⟩
    · rintro ⟨e, hmem, hpid, hlive, hp⟩
      refine ⟨(p.1, e), hmem, ?_⟩
      rw [if_pos ⟨hpid, hlive⟩, ← hp]
  refine ⟨hmain, ?_⟩
  intro p hp
  obtain ⟨e, _, _, _, hpe⟩ := (hmain p).mp hp
  rw [hpe]
  rfl

theorem c8_witness :
    ("live", restoredEntry liveEntry) ∈
      loadProcesses (fun p => p == 1) [("dead", deadEntry), ("live", liveEntry)] ∧
    ("dead", restoredEntry deadEntry) ∉
      loadProcesses (fun p => p == 1) [("dead", deadEntry), ("live", liveEntry)] := by
  constructor
  · exact ((c8_load_restores_live (fun p => p == 1)
      [("dead", deadEntry), ("live", liveEntry)]).1
      ("live", restoredEntry liveEntry)).mpr
      ⟨liveEntry, by decide, by decide, by decide, rfl⟩
  · intro hmem
    obtain ⟨e, hmem', hpid, hlive, _⟩ := ((c8_load_restores_live (fun p => p == 1)
      [("dead", deadEntry), ("live", liveEntry)]).1
      ("dead", restoredEntry deadEntry)).mp hmem
    simp only [List.mem_cons, List.not_mem_nil, or_false, Prod.mk.injEq] at hmem'
    rcases hmem' with ⟨_, rfl⟩ | ⟨hbad, _⟩
    · exact absurd hlive (by decide)
    · exact absurd hbad (by decide)

end Distributed
